import Mathlib

/-!
Verification of the text-chunking core of the gurdjieff-bot RAG pipeline.

The embedding below models `src/data_processing/text_chunker.py` (class
`TextChunker`: `clean_text`, `split_into_sentences`, `create_chunks`,
`_create_overlap`) and the batching loop of
`src/data_processing/embedding_service.py`
(`EmbeddingService.generate_embeddings_batch`).

Text is modelled as `List Char`.  The token counter (`tiktoken` in the
source) and the OpenAI embeddings client are external libraries, so they
appear as function parameters; concrete instantiations used in witnesses
and counterexamples are noted where they are defined.
-/

abbrev Text := List Char

/-- ASCII core of the whitespace class matched by the regex escape
occurring in the source patterns (space, tab, newline, carriage return,
vertical tab, form feed).  Python also admits further Unicode whitespace;
none of it is relevant to the claims below. -/
def isWS (c : Char) : Bool :=
  c == ' ' || c == '\t' || c == '\n' || c == '\r' || c == '\x0b' || c == '\x0c'

/-- Python `str.strip()`: drop leading and trailing whitespace. -/
def pstrip (l : Text) : Text :=
  ((l.dropWhile isWS).reverse.dropWhile isWS).reverse

/-- First step of `TextChunker.clean_text`:
`re.sub(r'\s+', ' ', text)` — every maximal run of whitespace characters
is replaced by a single space. -/
def collapseWS : Text → Text
  | [] => []
  | c :: cs =>
    if isWS c then
      match collapseWS cs with
      | [] => [' ']
      | d :: ds => if isWS d then d :: ds else ' ' :: d :: ds
    else c :: collapseWS cs

/-- Second step of `TextChunker.clean_text`:
`re.sub(r'^\d+\s*$', '', text, flags=re.MULTILINE)`.  It runs on the
output of the whitespace collapse, which contains no newline (lemma
`collapseWS_ws_is_space` below), so the MULTILINE anchors only match the
ends of the whole string: the text is erased exactly when it is one or
more digits followed by optional whitespace. -/
def stripPageNumber (l : Text) : Text :=
  if !(l.takeWhile Char.isDigit).isEmpty && (l.dropWhile Char.isDigit).all isWS
  then [] else l

/-- ASCII core of the regex word class: letters, digits, underscore. -/
def isWordChar (c : Char) : Bool := c.isAlphanum || c == '_'

/-- The punctuation explicitly allowed by the character class of the
third step of `clean_text` (the characters escaped in the class:
period, comma, semicolon, colon, bang, question mark, hyphen, straight
single quote, straight double quote). -/
def allowedPunct (c : Char) : Bool :=
  c == '.' || c == ',' || c == ';' || c == ':' || c == '!' || c == '?' ||
  c == '-' || c == Char.ofNat 39 || c == Char.ofNat 34

/-- A character the allow-list of `clean_text` keeps. -/
def allowedChar (c : Char) : Bool := isWordChar c || isWS c || allowedPunct c

/-- Third step of `TextChunker.clean_text`: every character outside the
allow-list is replaced by a space. -/
def replaceDisallowed (l : Text) : Text :=
  l.map (fun c => if allowedChar c then c else ' ')

/-- Fourth step of `TextChunker.clean_text`: the quote-normalization
substitution for double quotes.  In the source file the character class
of this regex consists of three STRAIGHT double-quote characters (the
file contains no curly-quote code points), so the substitution replaces
a straight double quote by itself. -/
def normalizeDoubleQuotes (l : Text) : Text :=
  l.map (fun c => if c == Char.ofNat 34 then Char.ofNat 34 else c)

/-- Fifth step of `TextChunker.clean_text`: the quote-normalization
substitution for single quotes; as with the double-quote class, the
source class consists of three straight single-quote characters. -/
def normalizeSingleQuotes (l : Text) : Text :=
  l.map (fun c => if c == Char.ofNat 39 then Char.ofNat 39 else c)

/-- `TextChunker.clean_text`: the five substitutions in source order,
followed by the final `.strip()`. -/
def clean_text (l : Text) : Text :=
  pstrip (normalizeSingleQuotes (normalizeDoubleQuotes
    (replaceDisallowed (stripPageNumber (collapseWS l)))))

/-- Sentence-ending punctuation used by the split pattern of
`TextChunker.split_into_sentences`. -/
def isPunct (c : Char) : Bool := c == '.' || c == '!' || c == '?'

/-- Scanner for `re.split` with the lookbehind pattern of
`split_into_sentences`: a separator is a maximal whitespace run whose
preceding character is `.`, `!` or `?`.  `prev` is the previously read
character, `inRun` records whether we are inside a separator run, `acc`
is the current piece (reversed), `pieces` the pieces already cut. -/
def splitGo (prev : Char) (inRun : Bool) (acc : Text) (pieces : List Text) :
    Text → List Text
  | [] => pieces ++ [acc.reverse]
  | c :: cs =>
    if inRun then
      if isWS c then splitGo c true acc pieces cs
      else splitGo c false [c] pieces cs
    else
      if isWS c && isPunct prev then splitGo c true [] (pieces ++ [acc.reverse]) cs
      else splitGo c false (c :: acc) pieces cs

/-- `TextChunker.split_into_sentences`: split after `.`/`!`/`?` followed
by whitespace, then strip each piece and keep the non-empty ones. -/
def split_into_sentences (l : Text) : List Text :=
  ((splitGo (Char.ofNat 0) false [] [] l).map pstrip).filter (fun s => !s.isEmpty)

/-- One chunk record as emitted by `TextChunker.create_chunks`
(the opaque `source_info` dictionary is the type parameter). -/
structure Chunk (σ : Type) where
  text : Text
  token_count : Nat
  source : σ
  chunk_id : Nat
deriving DecidableEq

/-- A chunk record extended with ghost data that the loop of
`create_chunks` manipulates but does not store in the emitted
dictionary: `newSents` is the value of `current_sentences` at emission
time (the sentences newly consumed into this chunk, excluding overlap
text), and `overlapText` is the overlap string that was prepended to
this chunk when its accumulator was started (empty for the first
chunk). -/
structure ChunkEx (σ : Type) where
  text : Text
  token_count : Nat
  source : σ
  chunk_id : Nat
  newSents : List Text
  overlapText : Text
deriving DecidableEq

def ChunkEx.toChunk {σ : Type} (c : ChunkEx σ) : Chunk σ :=
  ⟨c.text, c.token_count, c.source, c.chunk_id⟩

/-- The loop of `TextChunker._create_overlap`: scan the sentences of the
previous chunk in reverse, prepending each to the accumulated overlap as
long as the token count of the candidate stays within `chunk_overlap`;
stop at the first sentence that would exceed it. -/
def overlapAux (tc : Text → Nat) (co : Nat) : List Text → Text → Text
  | [], acc => acc
  | s :: rest, acc =>
    let pot := if acc.isEmpty then s else s ++ ' ' :: acc
    if tc pot ≤ co then overlapAux tc co rest pot else acc

/-- `TextChunker._create_overlap`. -/
def create_overlap (tc : Text → Nat) (co : Nat) (sentences : List Text) : Text :=
  if sentences.isEmpty then [] else pstrip (overlapAux tc co sentences.reverse [])

/-- The sentence loop of `TextChunker.create_chunks`.  State:
the remaining sentences, `current` (= `current_chunk`), `curSents`
(= `current_sentences`), the ghost overlap prefix of the chunk being
accumulated, and the chunks emitted so far (`chunk_id` is the length of
the accumulator, as `len(chunks)` in the source).  The emitted text is
`current_chunk.strip()` while the stored token count is
`count_tokens(current_chunk)` of the unstripped accumulator, exactly as
in the source. -/
def chunkLoop {σ : Type} (tc : Text → Nat) (csz co : Nat) (si : σ) :
    List Text → Text → List Text → Text → List (ChunkEx σ) → List (ChunkEx σ)
  | [], current, curSents, curOv, acc =>
    if (pstrip current).isEmpty then acc
    else acc ++ [⟨pstrip current, tc current, si, acc.length, curSents, curOv⟩]
  | s :: rest, current, curSents, curOv, acc =>
    let potential := if current.isEmpty then s else current ++ ' ' :: s
    if csz < tc potential && !current.isEmpty then
      let ov := create_overlap tc co curSents
      let newCur := if ov.isEmpty then s else ov ++ ' ' :: s
      chunkLoop tc csz co si rest newCur [s] ov
        (acc ++ [⟨pstrip current, tc current, si, acc.length, curSents, curOv⟩])
    else
      chunkLoop tc csz co si rest potential (curSents ++ [s]) curOv acc

/-- `TextChunker.create_chunks`, instrumented with the ghost fields of
`ChunkEx`. -/
def create_chunks_ex {σ : Type} (tc : Text → Nat) (csz co : Nat) (si : σ)
    (t : Text) : List (ChunkEx σ) :=
  chunkLoop tc csz co si (split_into_sentences (clean_text t)) [] [] [] []

/-- `TextChunker.create_chunks`: clean, split into sentences, run the
accumulation loop, and return the emitted chunk records. -/
def create_chunks {σ : Type} (tc : Text → Nat) (csz co : Nat) (si : σ)
    (t : Text) : List (Chunk σ) :=
  (create_chunks_ex tc csz co si t).map ChunkEx.toChunk

/-- Auxiliary for the word counter below. -/
def wordCountAux : Bool → Text → Nat
  | _, [] => 0
  | inWord, c :: cs =>
    if isWS c then wordCountAux false cs
    else (if inWord then 0 else 1) + wordCountAux true cs

/-- Modelled from the spec: the Token Counter (spec section 4.2) is
`tiktoken` in the source, an external library whose byte-pair-encoding
tables cannot be embedded; the spec requires only a deterministic map
from a string to a non-negative integer token count.  This concrete
instance counts maximal non-whitespace runs (words) and is used to
instantiate theorems at concrete inputs. -/
def wordTc (l : Text) : Nat := wordCountAux false l

/-- `noWSRun l` holds when `l` contains no two adjacent whitespace
characters, the sense in which whitespace is "collapsed". -/
def noWSRun : Text → Bool
  | a :: b :: rest => (!(isWS a && isWS b)) && noWSRun (b :: rest)
  | _ => true

/-- The batch loop of `EmbeddingService.generate_embeddings_batch`.
`api` models `self.client.embeddings.create` for one batch: `some es` is
a successful response carrying one embedding per item, `none` an
exception.  `b` is `batch_size - 1`, so each batch is the head plus up
to `b` following texts, as `texts[i:i+batch_size]` in the source; a
failed batch contributes one empty placeholder embedding per item. -/
def genAux (api : List String → Option (List (List Float))) (b : Nat) :
    List String → List (List Float)
  | [] => []
  | t :: ts =>
    let batch := t :: ts.take b
    let res := match api batch with
      | some es => es
      | none => List.replicate batch.length []
    res ++ genAux api b (ts.drop b)
termination_by l => l.length
decreasing_by simp only [List.length_drop, List.length_cons]; omega

/-- `EmbeddingService.generate_embeddings_batch`.  A `batch_size` of `0`
makes Python's `range(0, len(texts), 0)` raise `ValueError`, modelled as
`none`; otherwise the batches are processed sequentially. -/
def generate_embeddings_batch (api : List String → Option (List (List Float)))
    (texts : List String) (batchSize : Nat) : Option (List (List Float)) :=
  match batchSize with
  | 0 => none
  | b + 1 => some (genAux api b texts)

/-- A text is "good" when it is non-empty and already stripped; the
sentences produced by `split_into_sentences` are good, and so is every
chunk accumulator built from them. -/
def goodS (s : Text) : Prop := s ≠ [] ∧ pstrip s = s

/-! ### Basic facts about `pstrip` -/

theorem dropWhile_head?_not (p : Char → Bool) (l : Text) (c : Char)
    (h : (l.dropWhile p).head? = some c) : p c = false := by
  induction l with
  | nil => simp [List.dropWhile] at h
  | cons a l ih =>
    by_cases hpa : p a
    · rw [List.dropWhile_cons_of_pos hpa] at h; exact ih h
    · rw [List.dropWhile_cons_of_neg hpa] at h
      simp only [List.head?_cons, Option.some.injEq] at h
      subst h; exact Bool.eq_false_iff.mpr hpa

theorem dropWhile_eq_self_of_head? (p : Char → Bool) (l : Text)
    (h : ∀ c, l.head? = some c → p c = false) : l.dropWhile p = l := by
  cases l with
  | nil => rfl
  | cons a l =>
    have := h a (by simp)
    simp [List.dropWhile_cons, this]

theorem head?_pstrip (l : Text) (c : Char) (h : (pstrip l).head? = some c) :
    isWS c = false := by
  unfold pstrip at h
  rw [List.head?_reverse] at h
  set X := (l.dropWhile isWS).reverse with hX
  have hne : X.dropWhile isWS ≠ [] := by
    intro hnil; rw [hnil] at h; simp at h
  obtain ⟨t, ht⟩ := List.dropWhile_suffix (l := X) isWS
  have : X.getLast? = (X.dropWhile isWS).getLast? := by
    conv_lhs => rw [← ht]
    exact List.getLast?_append_of_ne_nil t hne
  rw [← this, hX, List.getLast?_reverse] at h
  exact dropWhile_head?_not isWS l c h

theorem getLast?_pstrip (l : Text) (c : Char) (h : (pstrip l).getLast? = some c) :
    isWS c = false := by
  unfold pstrip at h
  rw [List.getLast?_reverse] at h
  exact dropWhile_head?_not isWS _ c h

theorem pstrip_eq_self_of (l : Text)
    (h1 : ∀ c, l.head? = some c → isWS c = false)
    (h2 : ∀ c, l.getLast? = some c → isWS c = false) : pstrip l = l := by
  unfold pstrip
  rw [dropWhile_eq_self_of_head? isWS l h1]
  rw [dropWhile_eq_self_of_head? isWS l.reverse (by
    intro c hc; rw [List.head?_reverse] at hc; exact h2 c hc)]
  exact List.reverse_reverse l

theorem pstrip_idem (l : Text) : pstrip (pstrip l) = pstrip l :=
  pstrip_eq_self_of (pstrip l) (head?_pstrip l) (getLast?_pstrip l)

theorem pstrip_eq_nil_iff (l : Text) : pstrip l = [] ↔ ∀ c ∈ l, isWS c = true := by
  unfold pstrip
  rw [List.reverse_eq_nil_iff, List.dropWhile_eq_nil_iff]
  constructor
  · intro h c hc
    rcases (List.mem_append.mp
      ((List.takeWhile_append_dropWhile (p := isWS) (l := l)) ▸ hc)) with h1 | h1
    · exact List.mem_takeWhile_imp h1
    · exact h c (by simpa using h1)
  · intro h c hc
    exact h c ((List.dropWhile_sublist isWS).mem (by simpa using hc))

theorem mem_pstrip (l : Text) (c : Char) (h : c ∈ pstrip l) : c ∈ l := by
  unfold pstrip at h
  rw [List.mem_reverse] at h
  have h2 := (List.dropWhile_sublist (l := (l.dropWhile isWS).reverse) isWS).mem h
  rw [List.mem_reverse] at h2
  exact (List.dropWhile_sublist isWS).mem h2

theorem goodS_head?_not (s : Text) (hs : goodS s) (c : Char)
    (h : s.head? = some c) : isWS c = false :=
  head?_pstrip s c (by rw [hs.2]; exact h)

theorem goodS_getLast?_not (s : Text) (hs : goodS s) (c : Char)
    (h : s.getLast? = some c) : isWS c = false :=
  getLast?_pstrip s c (by rw [hs.2]; exact h)

theorem goodS_join (a b : Text) (ha : goodS a) (hb : goodS b) :
    goodS (a ++ ' ' :: b) := by
  refine ⟨by simp [ha.1], pstrip_eq_self_of _ ?_ ?_⟩
  · intro c hc
    rcases a with _ | ⟨x, xs⟩
    · exact absurd rfl ha.1
    · simp only [List.cons_append, List.head?_cons, Option.some.injEq] at hc
      exact goodS_head?_not _ ha c (by rw [← hc]; simp)
  · intro c hc
    rw [List.getLast?_append_of_ne_nil a (by simp)] at hc
    have : (' ' :: b).getLast? = b.getLast? := by
      have : ' ' :: b = [' '] ++ b := rfl
      rw [this, List.getLast?_append_of_ne_nil _ hb.1]
    rw [this] at hc
    exact goodS_getLast?_not _ hb c hc

theorem goodS_pstrip_ne_nil (s : Text) (hs : goodS s) : pstrip s ≠ [] := by
  rw [hs.2]; exact hs.1

theorem pstrip_ne_nil_of_mem (l : Text) (c : Char) (hc : c ∈ l)
    (hw : isWS c = false) : pstrip l ≠ [] := by
  intro h
  have := (pstrip_eq_nil_iff l).mp h c hc
  rw [hw] at this; exact Bool.false_ne_true this

theorem exists_not_ws_of_pstrip_ne_nil (l : Text) (h : pstrip l ≠ []) :
    ∃ c ∈ l, isWS c = false := by
  by_contra hc
  push_neg at hc
  exact h ((pstrip_eq_nil_iff l).mpr (fun c hcl => by
    have := hc c hcl
    exact eq_true_of_ne_false this))

/-! ### The sentences produced by `split_into_sentences` are good -/

theorem split_into_sentences_good (l : Text) :
    ∀ s ∈ split_into_sentences l, goodS s := by
  intro s hs
  unfold split_into_sentences at hs
  rw [List.mem_filter] at hs
  obtain ⟨hmem, hne⟩ := hs
  rw [List.mem_map] at hmem
  obtain ⟨x, _, hx⟩ := hmem
  refine ⟨by simpa using hne, ?_⟩
  rw [← hx]; exact pstrip_idem x

/-! ### Facts about `_create_overlap` -/

theorem overlapAux_inv (tc : Text → Nat) (co : Nat) (lst : List Text) :
    ∀ acc : Text, (acc = [] ∨ (goodS acc ∧ tc acc ≤ co)) →
    (∀ s ∈ lst, goodS s) →
    (overlapAux tc co lst acc = [] ∨
      (goodS (overlapAux tc co lst acc) ∧ tc (overlapAux tc co lst acc) ≤ co)) := by
  induction lst with
  | nil => intro acc hacc _; exact hacc
  | cons s rest ih =>
    intro acc hacc hlst
    have hs : goodS s := hlst s (by simp)
    unfold overlapAux
    simp only []
    by_cases hpot : tc (if acc.isEmpty then s else s ++ ' ' :: acc) ≤ co
    · rw [if_pos hpot]
      refine ih _ ?_ (fun x hx => hlst x (by simp [hx]))
      right
      constructor
      · by_cases hae : acc.isEmpty
        · simpa [hae] using hs
        · have : acc ≠ [] := by simpa using hae
          rcases hacc with h | h
          · exact absurd h this
          · simpa [hae] using goodS_join s acc hs h.1
      · simpa using hpot
    · rw [if_neg hpot]; exact hacc

theorem create_overlap_good (tc : Text → Nat) (co : Nat) (l : List Text) :
    create_overlap tc co l = [] ∨ goodS (create_overlap tc co l) := by
  unfold create_overlap
  by_cases hl : l.isEmpty
  · rw [if_pos hl]; left; rfl
  · rw [if_neg hl]
    by_cases hn : pstrip (overlapAux tc co l.reverse []) = []
    · left; exact hn
    · right; exact ⟨hn, pstrip_idem _⟩

theorem create_overlap_bound (tc : Text → Nat) (co : Nat) (l : List Text)
    (h0 : tc [] = 0) (hl : ∀ s ∈ l, goodS s) :
    tc (create_overlap tc co l) ≤ co := by
  unfold create_overlap
  by_cases hle : l.isEmpty
  · rw [if_pos hle]; omega
  · rw [if_neg hle]
    have := overlapAux_inv tc co l.reverse [] (Or.inl rfl)
      (fun s hs => hl s (List.mem_reverse.mp hs))
    rcases this with h | ⟨hg, hb⟩
    · rw [h]; show tc (pstrip []) ≤ co
      have : pstrip ([] : Text) = [] := rfl
      rw [this, h0]; omega
    · rw [hg.2]; exact hb

theorem create_overlap_zero (tc : Text → Nat) (l : List Text)
    (hpos : ∀ x : Text, x ≠ [] → 1 ≤ tc x) (hl : ∀ s ∈ l, goodS s) :
    create_overlap tc 0 l = [] := by
  unfold create_overlap
  by_cases hle : l.isEmpty
  · rw [if_pos hle]
  · rw [if_neg hle]
    have hrev : overlapAux tc 0 l.reverse [] = [] := by
      cases hrl : l.reverse with
      | nil => rfl
      | cons s rest =>
        have hs : goodS s := hl s (List.mem_reverse.mp (by rw [hrl]; simp))
        unfold overlapAux
        simp only [List.isEmpty_nil, if_pos]
        have : ¬ tc s ≤ 0 := by have := hpos s hs.1; omega
        simp [this]
    rw [hrev]; rfl

/-! ### Invariants of the sentence loop of `create_chunks` -/

theorem goodS_of_pstrip_ne_nil_suffix (ov s : Text) (hs : goodS s)
    (hov : ov = [] ∨ goodS ov) :
    goodS (if ov.isEmpty then s else ov ++ ' ' :: s) := by
  by_cases he : ov.isEmpty
  · simpa [he] using hs
  · have hne : ov ≠ [] := by simpa using he
    rcases hov with h | h
    · exact absurd h hne
    · simpa [he] using goodS_join ov s h hs

theorem chunkLoop_good_state {σ : Type} (tc : Text → Nat) (csz co : Nat) (si : σ)
    (sents : List Text) :
    ∀ (current : Text) (curSents : List Text) (curOv : Text) (acc : List (ChunkEx σ)),
    (∀ s ∈ sents, goodS s) →
    (current = [] ∨ goodS current) →
    (∀ c ∈ acc, goodS c.text ∧ c.token_count = tc c.text) →
    ∀ c ∈ chunkLoop tc csz co si sents current curSents curOv acc,
      goodS c.text ∧ c.token_count = tc c.text := by
  induction sents with
  | nil =>
    intro current curSents curOv acc _ hcur hacc c hc
    unfold chunkLoop at hc
    by_cases hpe : (pstrip current).isEmpty
    · rw [if_pos hpe] at hc; exact hacc c hc
    · rw [if_neg hpe] at hc
      rcases List.mem_append.mp hc with h | h
      · exact hacc c h
      · have hcval : c = ⟨pstrip current, tc current, si, acc.length, curSents, curOv⟩ := by
          simpa using h
        subst hcval
        have hpn : pstrip current ≠ [] := by simpa using hpe
        constructor
        · exact ⟨hpn, pstrip_idem current⟩
        · show tc current = tc (pstrip current)
          rcases hcur with h | h
          · rw [h] at hpn; exact absurd rfl hpn
          · rw [h.2]
  | cons s rest ih =>
    intro current curSents curOv acc hsents hcur hacc c hc
    have hs : goodS s := hsents s (by simp)
    have hrest : ∀ x ∈ rest, goodS x := fun x hx => hsents x (by simp [hx])
    unfold chunkLoop at hc
    simp only [] at hc
    by_cases hcond : csz < tc (if current.isEmpty then s else current ++ ' ' :: s)
        ∧ ¬current.isEmpty
    · rw [if_pos (by simpa [Bool.and_eq_true] using hcond)] at hc
      refine ih _ _ _ _ hrest ?_ ?_ c hc
      · right
        exact goodS_of_pstrip_ne_nil_suffix (create_overlap tc co curSents) s hs
          (create_overlap_good tc co curSents)
      · intro d hd
        rcases List.mem_append.mp hd with h | h
        · exact hacc d h
        · have hdval : d = ⟨pstrip current, tc current, si, acc.length, curSents, curOv⟩ := by
            simpa using h
          subst hdval
          have hcne : current ≠ [] := by simpa using hcond.2
          rcases hcur with h | h
          · exact absurd h hcne
          · refine ⟨?_, ?_⟩
            · show goodS (pstrip current)
              rw [h.2]; exact h
            · show tc current = tc (pstrip current)
              rw [h.2]
    · rw [if_neg (by simpa [Bool.and_eq_true] using hcond)] at hc
      refine ih _ _ _ _ hrest ?_ hacc c hc
      right
      by_cases hce : current.isEmpty
      · simpa [hce] using hs
      · have hcne : current ≠ [] := by simpa using hce
        rcases hcur with h | h
        · exact absurd h hcne
        · simpa [hce] using goodS_join current s h hs

theorem pstrip_join_ne_nil (ov s : Text) (hs : goodS s) :
    pstrip (if ov.isEmpty then s else ov ++ ' ' :: s) ≠ [] := by
  obtain ⟨c, hc, hw⟩ := exists_not_ws_of_pstrip_ne_nil s (goodS_pstrip_ne_nil s hs)
  by_cases he : ov.isEmpty
  · rw [if_pos he]; exact pstrip_ne_nil_of_mem s c hc hw
  · rw [if_neg he]
    exact pstrip_ne_nil_of_mem _ c (by simp [hc]) hw

theorem chunkLoop_join {σ : Type} (tc : Text → Nat) (csz co : Nat) (si : σ)
    (sents : List Text) :
    ∀ (current : Text) (curSents : List Text) (curOv : Text) (acc : List (ChunkEx σ)),
    (∀ s ∈ sents, goodS s) →
    (current = [] → curSents = []) →
    (current ≠ [] → pstrip current ≠ []) →
    ((chunkLoop tc csz co si sents current curSents curOv acc).map ChunkEx.newSents).join
      = ((acc.map ChunkEx.newSents).join ++ curSents) ++ sents := by
  induction sents with
  | nil =>
    intro current curSents curOv acc _ h2 h3
    unfold chunkLoop
    by_cases hpe : (pstrip current).isEmpty
    · rw [if_pos hpe]
      have hce : current = [] := by
        by_contra hne
        exact (h3 hne) (by simpa using hpe)
      rw [h2 hce]
      simp
    · rw [if_neg hpe]
      simp
  | cons s rest ih =>
    intro current curSents curOv acc hsents h2 h3
    have hs : goodS s := hsents s (by simp)
    have hrest : ∀ x ∈ rest, goodS x := fun x hx => hsents x (by simp [hx])
    unfold chunkLoop
    simp only []
    by_cases hcond : csz < tc (if current.isEmpty then s else current ++ ' ' :: s)
        ∧ ¬current.isEmpty
    · rw [if_pos (by simpa [Bool.and_eq_true] using hcond)]
      have hnc : pstrip (if (create_overlap tc co curSents).isEmpty then s
          else create_overlap tc co curSents ++ ' ' :: s) ≠ [] :=
        pstrip_join_ne_nil _ s hs
      rw [ih _ _ _ _ hrest
        (fun h => absurd h (fun hh => hnc (by rw [hh]; rfl)))
        (fun _ => hnc)]
      simp
    · rw [if_neg (by simpa [Bool.and_eq_true] using hcond)]
      have hnp : pstrip (if current.isEmpty then s else current ++ ' ' :: s) ≠ [] :=
        pstrip_join_ne_nil current s hs
      rw [ih _ _ _ _ hrest
        (fun h => absurd h (fun hh => hnp (by rw [hh]; rfl)))
        (fun _ => hnp)]
      simp

theorem chunkLoop_budget {σ : Type} (tc : Text → Nat) (csz co : Nat) (si : σ)
    (sents : List Text) :
    ∀ (current : Text) (curSents : List Text) (curOv : Text) (acc : List (ChunkEx σ)),
    (∀ s ∈ sents, goodS s) →
    (current = [] → curSents = []) →
    (current ≠ [] → tc current ≤ csz ∨ curSents.length = 1) →
    (∀ c ∈ acc, c.token_count ≤ csz ∨ c.newSents.length = 1) →
    ∀ c ∈ chunkLoop tc csz co si sents current curSents curOv acc,
      c.token_count ≤ csz ∨ c.newSents.length = 1 := by
  induction sents with
  | nil =>
    intro current curSents curOv acc _ _ hinv hacc c hc
    unfold chunkLoop at hc
    by_cases hpe : (pstrip current).isEmpty
    · rw [if_pos hpe] at hc; exact hacc c hc
    · rw [if_neg hpe] at hc
      rcases List.mem_append.mp hc with h | h
      · exact hacc c h
      · have hcval : c = ⟨pstrip current, tc current, si, acc.length, curSents, curOv⟩ := by
          simpa using h
        subst hcval
        have hcne : current ≠ [] := by
          intro hh; rw [hh] at hpe; exact hpe (by rfl)
        exact hinv hcne
  | cons s rest ih =>
    intro current curSents curOv acc hsents h2 hinv hacc c hc
    have hs : goodS s := hsents s (by simp)
    have hrest : ∀ x ∈ rest, goodS x := fun x hx => hsents x (by simp [hx])
    unfold chunkLoop at hc
    simp only [] at hc
    by_cases hcond : csz < tc (if current.isEmpty then s else current ++ ' ' :: s)
        ∧ ¬current.isEmpty
    · rw [if_pos (by simpa [Bool.and_eq_true] using hcond)] at hc
      have hcne : current ≠ [] := by simpa using hcond.2
      refine ih _ _ _ _ hrest ?_ ?_ ?_ c hc
      · intro h
        have := pstrip_join_ne_nil (create_overlap tc co curSents) s hs
        rw [h] at this
        exact absurd rfl this
      · intro _; right; rfl
      · intro d hd
        rcases List.mem_append.mp hd with h | h
        · exact hacc d h
        · have hdval : d = ⟨pstrip current, tc current, si, acc.length, curSents, curOv⟩ := by
            simpa using h
          subst hdval
          exact hinv hcne
    · rw [if_neg (by simpa [Bool.and_eq_true] using hcond)] at hc
      refine ih _ _ _ _ hrest ?_ ?_ hacc c hc
      · intro h
        have := pstrip_join_ne_nil current s hs
        rw [h] at this
        exact absurd rfl this
      · intro _
        by_cases hce : current.isEmpty
        · right
          have : curSents = [] := h2 (by simpa using hce)
          rw [this]; rfl
        · left
          have hlt : ¬ csz < tc (if current.isEmpty then s else current ++ ' ' :: s) := by
            intro hgt; exact hcond ⟨hgt, hce⟩
          omega

theorem chunkLoop_overlap {σ : Type} (tc : Text → Nat) (csz co : Nat) (si : σ)
    (h0 : tc [] = 0) (hpos : ∀ x : Text, x ≠ [] → 1 ≤ tc x)
    (sents : List Text) :
    ∀ (current : Text) (curSents : List Text) (curOv : Text) (acc : List (ChunkEx σ)),
    (∀ s ∈ sents, goodS s) →
    (∀ s ∈ curSents, goodS s) →
    (tc curOv ≤ co ∧ (co = 0 → curOv = [])) →
    (∀ c ∈ acc, tc c.overlapText ≤ co ∧ (co = 0 → c.overlapText = [])) →
    ∀ c ∈ chunkLoop tc csz co si sents current curSents curOv acc,
      tc c.overlapText ≤ co ∧ (co = 0 → c.overlapText = []) := by
  induction sents with
  | nil =>
    intro current curSents curOv acc _ _ hov hacc c hc
    unfold chunkLoop at hc
    by_cases hpe : (pstrip current).isEmpty
    · rw [if_pos hpe] at hc; exact hacc c hc
    · rw [if_neg hpe] at hc
      rcases List.mem_append.mp hc with h | h
      · exact hacc c h
      · have hcval : c = ⟨pstrip current, tc current, si, acc.length, curSents, curOv⟩ := by
          simpa using h
        subst hcval
        exact hov
  | cons s rest ih =>
    intro current curSents curOv acc hsents hcs hov hacc c hc
    have hs : goodS s := hsents s (by simp)
    have hrest : ∀ x ∈ rest, goodS x := fun x hx => hsents x (by simp [hx])
    unfold chunkLoop at hc
    simp only [] at hc
    by_cases hcond : csz < tc (if current.isEmpty then s else current ++ ' ' :: s)
        ∧ ¬current.isEmpty
    · rw [if_pos (by simpa [Bool.and_eq_true] using hcond)] at hc
      refine ih _ _ _ _ hrest (fun x hx => by simpa using (by
          have : x = s := by simpa using hx
          rw [this]; exact hs)) ?_ ?_ c hc
      · refine ⟨create_overlap_bound tc co curSents h0 hcs, ?_⟩
        intro hco; subst hco
        exact create_overlap_zero tc curSents hpos hcs
      · intro d hd
        rcases List.mem_append.mp hd with h | h
        · exact hacc d h
        · have hdval : d = ⟨pstrip current, tc current, si, acc.length, curSents, curOv⟩ := by
            simpa using h
          subst hdval
          exact hov
    · rw [if_neg (by simpa [Bool.and_eq_true] using hcond)] at hc
      refine ih _ _ _ _ hrest ?_ hov hacc c hc
      intro x hx
      rcases List.mem_append.mp hx with h | h
      · exact hcs x h
      · have : x = s := by simpa using h
        rw [this]; exact hs

theorem chunkLoop_ne_nil {σ : Type} (tc : Text → Nat) (csz co : Nat) (si : σ)
    (sents : List Text) :
    ∀ (current : Text) (curSents : List Text) (curOv : Text) (acc : List (ChunkEx σ)),
    (∀ s ∈ sents, goodS s) →
    (pstrip current ≠ [] ∨ acc ≠ []) →
    chunkLoop tc csz co si sents current curSents curOv acc ≠ [] := by
  induction sents with
  | nil =>
    intro current curSents curOv acc _ hne
    unfold chunkLoop
    by_cases hpe : (pstrip current).isEmpty
    · rw [if_pos hpe]
      rcases hne with h | h
      · exact absurd (by simpa using hpe) h
      · exact h
    · rw [if_neg hpe]; simp
  | cons s rest ih =>
    intro current curSents curOv acc hsents _
    have hs : goodS s := hsents s (by simp)
    have hrest : ∀ x ∈ rest, goodS x := fun x hx => hsents x (by simp [hx])
    unfold chunkLoop
    simp only []
    by_cases hcond : csz < tc (if current.isEmpty then s else current ++ ' ' :: s)
        ∧ ¬current.isEmpty
    · rw [if_pos (by simpa [Bool.and_eq_true] using hcond)]
      exact ih _ _ _ _ hrest (Or.inr (by simp))
    · rw [if_neg (by simpa [Bool.and_eq_true] using hcond)]
      exact ih _ _ _ _ hrest (Or.inl (pstrip_join_ne_nil current s hs))

/-! ### Claim theorems -/

/-- Claim C2: for every input text, concatenating in chunk order the
newly consumed (non-overlap) sentences of each chunk produced by
`create_chunks` yields exactly the ordered sentence sequence produced by
splitting the normalized input, each sentence exactly once. -/
theorem C2_reconstruction {σ : Type} (tc : Text → Nat) (csz co : Nat) (si : σ) (t : Text) :
    ((create_chunks_ex tc csz co si t).map ChunkEx.newSents).join
      = split_into_sentences (clean_text t) := by
  unfold create_chunks_ex
  rw [chunkLoop_join tc csz co si _ [] [] [] []
    (split_into_sentences_good _) (fun _ => rfl) (fun h => absurd rfl h)]
  simp

/-- Claim C5: every chunk record emitted by `create_chunks` stores a
`token_count` equal to the token counter applied to its stored `text`
(the accumulated string trimmed of surrounding whitespace); the value is
recomputed at finalization, never stale. -/
theorem C5_token_count {σ : Type} (tc : Text → Nat) (csz co : Nat) (si : σ) (t : Text) :
    ∀ c ∈ create_chunks tc csz co si t, c.token_count = tc c.text := by
  intro c hc
  unfold create_chunks at hc
  rw [List.mem_map] at hc
  obtain ⟨d, hd, he⟩ := hc
  have h := (chunkLoop_good_state tc csz co si _ [] [] [] []
    (split_into_sentences_good _) (Or.inl rfl) (by simp) d hd).2
  rw [← he]
  exact h

/-- Witness for C5 at a concrete input. -/
theorem C5_token_count_witness :
    ((⟨("hi.").toList, 1, (), 0⟩ : Chunk Unit)
        ∈ create_chunks wordTc 10 0 () (("hi.").toList)) ∧
    (⟨("hi.").toList, 1, (), 0⟩ : Chunk Unit).token_count
      = wordTc (⟨("hi.").toList, 1, (), 0⟩ : Chunk Unit).text := by
  refine ⟨by decide, ?_⟩
  exact C5_token_count wordTc 10 0 () (("hi.").toList) _ (by decide)

/-- Claim C10: every chunk record returned by `create_chunks` has a
non-empty text field, and that text carries no leading or trailing
whitespace (in particular it is not whitespace-only). -/
theorem C10_nonempty {σ : Type} (tc : Text → Nat) (csz co : Nat) (si : σ) (t : Text) :
    ∀ c ∈ create_chunks tc csz co si t, c.text ≠ [] ∧ pstrip c.text = c.text := by
  intro c hc
  unfold create_chunks at hc
  rw [List.mem_map] at hc
  obtain ⟨d, hd, he⟩ := hc
  have h := (chunkLoop_good_state tc csz co si _ [] [] [] []
    (split_into_sentences_good _) (Or.inl rfl) (by simp) d hd).1
  rw [← he]
  exact h

/-- Witness for C10 at a concrete input. -/
theorem C10_nonempty_witness :
    ((⟨("ok.").toList, 1, (), 0⟩ : Chunk Unit)
        ∈ create_chunks wordTc 10 0 () (("ok.").toList)) ∧
    ((⟨("ok.").toList, 1, (), 0⟩ : Chunk Unit).text ≠ ([] : Text) ∧
      pstrip (⟨("ok.").toList, 1, (), 0⟩ : Chunk Unit).text
        = (⟨("ok.").toList, 1, (), 0⟩ : Chunk Unit).text) := by
  refine ⟨by decide, ?_⟩
  exact C10_nonempty wordTc 10 0 () (("ok.").toList) _ (by decide)

/-- Claim C1 as stated is false: a chunk that starts with overlap text
can exceed the budget even though neither it nor any sentence of it is a
single over-budget sentence.  With a word-count token counter,
`chunk_size = 10` and `chunk_overlap = 5`, the middle chunk of this
input has `token_count = 13 > 10`, its text splits into two sentences,
and neither its sentences nor its newly consumed sentence exceed the
budget on their own. -/
theorem C1_counterexample :
    ¬ (∀ c ∈ create_chunks_ex wordTc 10 5 ()
        (("a b c d. e f g h i j k l m. n.").toList),
      c.token_count ≤ 10 ∨
        (split_into_sentences c.text = [c.text] ∧ 10 < wordTc c.text) ∨
        (c.newSents = [c.text] ∧ 10 < wordTc c.text) ∨
        c.newSents.any (fun s => decide (10 < wordTc s)) = true) := by decide

/-- Claim C1 amended: every chunk's `token_count` is at most
`chunk_size` except a chunk whose newly consumed portion is a single
sentence (the chunk text being that sentence, possibly prefixed by the
previous chunk's overlap text); only such chunks can exceed the
budget. -/
theorem C1_budget_amended {σ : Type} (tc : Text → Nat) (csz co : Nat) (si : σ) (t : Text) :
    ∀ c ∈ create_chunks_ex tc csz co si t,
      c.token_count ≤ csz ∨ c.newSents.length = 1 := by
  intro c hc
  exact chunkLoop_budget tc csz co si _ [] [] [] []
    (split_into_sentences_good _) (fun _ => rfl) (fun h => absurd rfl h) (by simp) c hc

/-- Witness for the amended C1 at a concrete input. -/
theorem C1_budget_amended_witness :
    ((⟨("a.").toList, 1, (), 0, [("a.").toList], []⟩ : ChunkEx Unit)
        ∈ create_chunks_ex wordTc 10 5 () (("a.").toList)) ∧
    ((⟨("a.").toList, 1, (), 0, [("a.").toList], []⟩ : ChunkEx Unit).token_count ≤ 10 ∨
      (⟨("a.").toList, 1, (), 0, [("a.").toList], []⟩ : ChunkEx Unit).newSents.length = 1) := by
  refine ⟨by decide, ?_⟩
  exact C1_budget_amended wordTc 10 5 () (("a.").toList) _ (by decide)

/-- Claim C6: `create_chunks` returns an empty chunk sequence exactly
when normalizing and splitting the input yields no sentence; any input
with at least one non-whitespace sentence yields a non-empty
sequence. -/
theorem C6_empty_iff {σ : Type} (tc : Text → Nat) (csz co : Nat) (si : σ) (t : Text) :
    create_chunks tc csz co si t = [] ↔ split_into_sentences (clean_text t) = [] := by
  constructor
  · intro h
    by_contra hs
    cases hsp : split_into_sentences (clean_text t) with
    | nil => exact hs hsp
    | cons s rest =>
      have hgood := split_into_sentences_good (clean_text t)
      rw [hsp] at hgood
      have hs1 : goodS s := hgood s (by simp)
      have hrest : ∀ x ∈ rest, goodS x := fun x hx => hgood x (by simp [hx])
      have h1 : chunkLoop tc csz co si (s :: rest) [] [] [] ([] : List (ChunkEx σ)) ≠ [] := by
        unfold chunkLoop
        simp only [List.isEmpty_nil, Bool.not_true, Bool.and_false, Bool.false_eq_true,
          if_false]
        exact chunkLoop_ne_nil tc csz co si rest s ([] ++ [s]) [] []
          hrest (Or.inl (by rw [hs1.2]; exact hs1.1))
      unfold create_chunks create_chunks_ex at h
      rw [hsp] at h
      rw [List.map_eq_nil] at h
      exact h1 h
  · intro h
    unfold create_chunks create_chunks_ex
    rw [h]
    rfl

/-- Claim C3: for every chunk emitted by `create_chunks`, the overlap
text prepended to it (computed by `_create_overlap` from the previous
chunk's sentences, scanned in reverse, greedily keeping a trailing
window and stopping at the first sentence that would exceed the budget)
has token count at most `chunk_overlap`; and when `chunk_overlap = 0` no
overlap text is produced.  The hypotheses state the two facts true of
any real tokenizer: the empty text has zero tokens and a non-empty text
has at least one. -/
theorem C3_overlap_bound {σ : Type} (tc : Text → Nat) (csz co : Nat) (si : σ) (t : Text)
    (h0 : tc [] = 0) (hpos : ∀ x : Text, x ≠ [] → 1 ≤ tc x) :
    ∀ c ∈ create_chunks_ex tc csz co si t,
      tc c.overlapText ≤ co ∧ (co = 0 → c.overlapText = []) := by
  intro c hc
  exact chunkLoop_overlap tc csz co si h0 hpos _ [] [] [] []
    (split_into_sentences_good _) (by simp)
    ⟨by rw [h0]; exact Nat.zero_le co, fun _ => rfl⟩ (by simp) c hc

/-- Witness for C3 at a concrete input, with the character-count token
counter: the second chunk of this run is prepended a one-sentence
overlap of 3 tokens, within the overlap budget 3. -/
theorem C3_overlap_bound_witness :
    List.length (("ab.").toList) ≤ 3 ∧ ((3 : Nat) = 0 → ("ab.").toList = ([] : Text)) :=
  C3_overlap_bound List.length 5 3 () (("ab. cd.").toList) rfl
    (fun x hx => List.length_pos.mpr hx)
    (⟨("ab. cd.").toList, 7, (), 1, [("cd.").toList], ("ab.").toList⟩ : ChunkEx Unit)
    (by decide)

/-- Claim C4: an input whose normalized text splits into exactly one
sentence whose token count exceeds `chunk_size` produces exactly one
chunk containing that full sentence unsplit, with `token_count` equal to
the sentence's true (over-budget) token count. -/
theorem C4_oversized {σ : Type} (tc : Text → Nat) (csz co : Nat) (si : σ) (t : Text)
    (s : Text) (hsplit : split_into_sentences (clean_text t) = [s])
    (hbig : csz < tc s) :
    create_chunks tc csz co si t = [⟨s, tc s, si, 0⟩] := by
  have hgood : goodS s :=
    split_into_sentences_good (clean_text t) s (by rw [hsplit]; simp)
  have hemp : (pstrip s).isEmpty = false := by
    rw [hgood.2]
    cases hx : s with
    | nil => exact absurd hx hgood.1
    | cons a l => rfl
  unfold create_chunks create_chunks_ex
  rw [hsplit]
  simp only [chunkLoop, List.isEmpty_nil, Bool.not_true, Bool.and_false,
    Bool.false_eq_true, if_false, if_true, List.nil_append, hemp,
    List.map_cons, List.map_nil, ChunkEx.toChunk, List.length_nil]
  rw [hgood.2]

/-- Witness for C4: a three-word single sentence against a word-count
budget of 2 becomes one over-budget chunk. -/
theorem C4_oversized_witness :
    (split_into_sentences (clean_text (("a b c").toList)) = [("a b c").toList]) ∧
    (2 < wordTc (("a b c").toList)) ∧
    create_chunks wordTc 2 0 () (("a b c").toList)
      = [⟨("a b c").toList, 3, (), 0⟩] := by
  refine ⟨by decide, by decide, ?_⟩
  have h := C4_oversized wordTc 2 0 () (("a b c").toList) (("a b c").toList)
    (by decide) (by decide)
  rw [h]
  decide

/-- Claim C7 as stated is false: a curly double quote in the input does
not appear in the output as a straight double quote.  The
OCR-artifact substitution of `clean_text` runs before quote
normalization, its allow-list excludes curly quotes, and the
quote-normalization character classes in the source contain only
straight-quote characters; so the curly quote is replaced by a space
(here then stripped), and no straight double quote is produced. -/
theorem C7_counterexample :
    clean_text [Char.ofNat 0x201C, 'a'] = ['a'] ∧
    (Char.ofNat 34) ∉ clean_text [Char.ofNat 0x201C, 'a'] := by decide

/-- Claim C7 amended: curly double and single quotes never survive into
the output of `clean_text` — they are replaced by spaces by the
artifact-removal step (not normalized to straight quotes). -/
theorem C7_amended (t : Text) :
    ∀ c ∈ clean_text t,
      c ≠ Char.ofNat 0x201C ∧ c ≠ Char.ofNat 0x201D ∧
      c ≠ Char.ofNat 0x2018 ∧ c ≠ Char.ofNat 0x2019 := by
  intro c hc
  have hc1 : c ∈ normalizeSingleQuotes (normalizeDoubleQuotes
      (replaceDisallowed (stripPageNumber (collapseWS t)))) := mem_pstrip _ c hc
  unfold normalizeSingleQuotes at hc1
  rw [List.mem_map] at hc1
  obtain ⟨b, hb, hbe⟩ := hc1
  by_cases h39 : b == Char.ofNat 39
  · rw [if_pos h39] at hbe
    rw [← hbe]
    exact ⟨by decide, by decide, by decide, by decide⟩
  · rw [if_neg h39] at hbe
    subst hbe
    unfold normalizeDoubleQuotes at hb
    rw [List.mem_map] at hb
    obtain ⟨a, ha, hae⟩ := hb
    by_cases h34 : a == Char.ofNat 34
    · rw [if_pos h34] at hae
      rw [← hae]
      exact ⟨by decide, by decide, by decide, by decide⟩
    · rw [if_neg h34] at hae
      subst hae
      unfold replaceDisallowed at ha
      rw [List.mem_map] at ha
      obtain ⟨d, hd, hde⟩ := ha
      by_cases had : allowedChar d
      · rw [if_pos had] at hde
        subst hde
        refine ⟨?_, ?_, ?_, ?_⟩ <;> intro he <;> rw [he] at had <;>
          exact absurd had (by decide)
      · rw [if_neg had] at hde
        rw [← hde]
        exact ⟨by decide, by decide, by decide, by decide⟩

/-- Witness for the amended C7 at a concrete input. -/
theorem C7_amended_witness :
    ('a' ∈ clean_text [Char.ofNat 0x201C, 'a']) ∧
    ('a' ≠ Char.ofNat 0x201C ∧ 'a' ≠ Char.ofNat 0x201D ∧
      'a' ≠ Char.ofNat 0x2018 ∧ 'a' ≠ Char.ofNat 0x2019) := by
  refine ⟨by decide, ?_⟩
  exact C7_amended [Char.ofNat 0x201C, 'a'] 'a' (by decide)

/-- Claim C8 as stated is false: the character-replacement step of
`clean_text` runs after the whitespace collapse and can introduce new
multi-space runs that persist into the output.  Two adjacent disallowed
characters each become a space. -/
theorem C8_counterexample :
    clean_text (('a') :: '#' :: '#' :: 'b' :: []) = 'a' :: ' ' :: ' ' :: 'b' :: [] ∧
    noWSRun (clean_text (('a') :: '#' :: '#' :: 'b' :: [])) = false := by decide

/-- Every whitespace character surviving the collapse step is a plain
space; in particular no newline remains, which justifies modelling the
MULTILINE page-number substitution on whole strings only. -/
theorem collapseWS_ws_is_space (l : Text) :
    ∀ c ∈ collapseWS l, isWS c = true → c = ' ' := by
  induction l with
  | nil => intro c hc; simp [collapseWS] at hc
  | cons a as ih =>
    intro c hc hw
    unfold collapseWS at hc
    by_cases ha : isWS a
    · rw [if_pos ha] at hc
      cases hrec : collapseWS as with
      | nil =>
        rw [hrec] at hc
        simpa using hc
      | cons d ds =>
        rw [hrec] at hc
        dsimp only [] at hc
        by_cases hd : isWS d
        · rw [if_pos hd] at hc
          exact ih c (by rw [hrec]; exact hc) hw
        · rw [if_neg hd] at hc
          rcases List.mem_cons.mp hc with h | h
          · exact h
          · exact ih c (by rw [hrec]; exact h) hw
    · rw [if_neg ha] at hc
      rcases List.mem_cons.mp hc with h | h
      · rw [h] at hw; exact absurd hw (by simp [ha])
      · exact ih c h hw

theorem noWSRun_cons (a : Char) (l : Text) (ha : isWS a = false)
    (hl : noWSRun l = true) : noWSRun (a :: l) = true := by
  cases l with
  | nil => rfl
  | cons b bs => simp [noWSRun, ha, hl]

/-- Claim C8 amended: the whitespace collapse is the FIRST step of
`clean_text`, not the last; its own output contains no run of two or
more whitespace characters, but the later artifact-replacement step can
introduce multi-space runs that persist into the final output. -/
theorem C8_amended (l : Text) : noWSRun (collapseWS l) = true := by
  induction l with
  | nil => rfl
  | cons a as ih =>
    unfold collapseWS
    by_cases ha : isWS a
    · rw [if_pos ha]
      cases hrec : collapseWS as with
      | nil => rfl
      | cons d ds =>
        dsimp only []
        by_cases hd : isWS d
        · rw [if_pos hd, ← hrec]; exact ih
        · have hd2 : isWS d = false := by simpa using hd
          rw [if_neg hd]
          simp only [noWSRun, hd2, Bool.and_false, Bool.not_false, Bool.true_and]
          rw [← hrec]; exact ih
    · have ha2 : isWS a = false := by simpa using ha
      rw [if_neg ha]
      exact noWSRun_cons a (collapseWS as) ha2 ih

theorem genAux_length (api : List String → Option (List (List Float)))
    (hapi : ∀ b out, api b = some out → out.length = b.length) (b : Nat) :
    ∀ ts : List String, (genAux api b ts).length = ts.length := by
  have H : ∀ n (ts : List String), ts.length ≤ n →
      (genAux api b ts).length = ts.length := by
    intro n
    induction n with
    | zero =>
      intro ts hts
      cases ts with
      | nil => simp [genAux]
      | cons t rest => simp at hts
    | succ n ih =>
      intro ts hts
      cases ts with
      | nil => simp [genAux]
      | cons t rest =>
        have hrec : (genAux api b (List.drop b rest)).length
            = (List.drop b rest).length := by
          apply ih
          simp only [List.length_drop]
          simp only [List.length_cons] at hts
          omega
        simp only [genAux, List.length_append, List.length_cons]
        cases hapir : api (t :: List.take b rest) with
        | some es =>
          have hlen := hapi _ es hapir
          simp only [List.length_cons, List.length_take] at hlen
          rw [hrec, hlen]
          simp only [List.length_drop]
          omega
        | none =>
          rw [hrec]
          simp only [List.length_replicate, List.length_cons, List.length_take,
            List.length_drop]
          omega
  intro ts
  exact H ts.length ts (Nat.le_refl _)

/-- Claim C9: `generate_embeddings_batch` returns a list whose length
equals that of the input list whenever it returns at all: items of a
failed batch are replaced by empty placeholder embeddings rather than
omitted, so positional alignment between chunks and embeddings is
preserved.  The hypothesis on `api` is the embeddings-API contract that
a successful batch response carries one embedding per input item. -/
theorem C9_length_preserved (api : List String → Option (List (List Float)))
    (texts : List String) (batchSize : Nat) (res : List (List Float))
    (hapi : ∀ b out, api b = some out → out.length = b.length)
    (hres : generate_embeddings_batch api texts batchSize = some res) :
    res.length = texts.length := by
  cases batchSize with
  | zero => simp [generate_embeddings_batch] at hres
  | succ b =>
    simp only [generate_embeddings_batch, Option.some.injEq] at hres
    rw [← hres]
    exact genAux_length api hapi b texts

/-- Witness for C9: an always-failing client on three texts still
yields three (placeholder) embeddings. -/
theorem C9_length_preserved_witness :
    (generate_embeddings_batch (fun _ => (none : Option (List (List Float))))
        (["a", "b", "c"]) 2 = some [[], [], []]) ∧
    ([[], [], []] : List (List Float)).length = (["a", "b", "c"] : List String).length := by
  have h1 : generate_embeddings_batch (fun _ => (none : Option (List (List Float))))
      (["a", "b", "c"]) 2 = some [[], [], []] := by
    simp [generate_embeddings_batch, genAux]
  refine ⟨h1, ?_⟩
  exact C9_length_preserved (fun _ => (none : Option (List (List Float))))
    (["a", "b", "c"]) 2 ([[], [], []]) (fun b out h => absurd h (by simp)) h1
